import Mathlib

/-!
Verification development for the autocut transcription pipeline
(`autocut/transcribe.py`): voice-activity segmentation, transcription
dispatch, and timestamp reconciliation (`Transcribe._save_srt`,
`Transcribe._transcribe`, `Transcribe._detect_voice_activity`,
`Transcribe.run`, `Transcribe._save_full_text`).

Times and sample offsets are modelled as rationals (the Python code uses
floats; the arithmetic involved is exact on the values of interest).
Python string helpers `str.strip` and `str.endswith` are modelled by
list-based Lean functions `pyStrip` and `pyEndsWith`.
-/

namespace Autocut

/-- Python's `str.strip()`: remove leading and trailing whitespace. -/
def pyStrip (s : String) : String :=
  ⟨(((s.data.dropWhile Char.isWhitespace).reverse).dropWhile Char.isWhitespace).reverse⟩

/-- Python's `str.endswith(suffix)`. -/
def pyEndsWith (s suffix : String) : Bool :=
  suffix.data.isSuffixOf s.data

/-- A span of audio, `{"start": ..., "end": ...}`, in absolute sample offsets
(`end` is a Lean keyword, so the field is called `stop`). -/
structure Span where
  start : ℚ
  stop : ℚ
  deriving DecidableEq, Repr

/-- One entry of `r["segments"]` returned by the recognition model:
start/end in seconds local to the sliced audio, plus the text. -/
structure Fragment where
  start : ℚ
  stop : ℚ
  text : String
  deriving DecidableEq, Repr

/-- A whisper result `r` together with its attached `r["origin_timestamp"]`. -/
structure TranscriptResult where
  origin : Span
  segments : List Fragment
  deriving DecidableEq, Repr

/-- An `srt.Subtitle` as built by `_add_sub` (the `index` field is always 0
there, so it is omitted). -/
structure Sub where
  start : ℚ
  stop : ℚ
  text : String
  deriving DecidableEq, Repr

/-- The fixed gap-marker text used by `_save_srt`. -/
def noSpeechText : String := "< No Speech >"

/-- `_add_sub(start, end, text)`: the opencc traditional-to-simplified
conversion is out of scope (external collaborator), modelled as identity;
`text.strip()` is modelled by `pyStrip`. -/
def addSub (start stop : ℚ) (text : String) : Sub :=
  ⟨start, stop, pyStrip text⟩

/-- A subtitle entry is a gap marker when it carries the fixed marker text. -/
def isMarkerSub (s : Sub) : Bool :=
  s.text == noSpeechText

/-- The inner loop of `_save_srt` over `r["segments"]`, for one transcript
result whose offset `origin["start"] / sampling_rate` is `off` and whose
clamp bound `origin["end"] / sampling_rate` is `oend`. Threads `prev_end`
and returns it together with the emitted subtitles, in emission order. -/
def processFrags (off oend : ℚ) (prevEnd : ℚ) : List Fragment → ℚ × List Sub
  | [] => (prevEnd, [])
  | f :: fs =>
    let start := f.start + off
    let e := min (f.stop + off) oend
    if start > e then processFrags off oend prevEnd fs
    else
      let pre := if start > prevEnd + 1 then [addSub prevEnd start noSpeechText] else []
      let rest := processFrags off oend e fs
      (rest.1, pre ++ addSub start e f.text :: rest.2)

/-- The outer loop of `_save_srt` over `transcribe_results`. -/
def processResults (sr : ℚ) (prevEnd : ℚ) : List TranscriptResult → ℚ × List Sub
  | [] => (prevEnd, [])
  | r :: rs =>
    let step := processFrags (r.origin.start / sr) (r.origin.stop / sr) prevEnd r.segments
    let rest := processResults sr step.1 rs
    (rest.1, step.2 ++ rest.2)

/-- `Transcribe._save_srt`: the list of subtitle entries composed into the
output file, in emission order, with `prev_end` initialised to 0. -/
def save_srt (sr : ℚ) (results : List TranscriptResult) : List Sub :=
  (processResults sr 0 results).2

/-- The gap-marker discipline of `_save_srt`, relative to the running
`prev_end`: the emitted list alternates between plainly-emitted fragment
entries (start within one second of `prev_end`) and marker-then-fragment
pairs (marker spanning exactly `[prev_end, fragment.start]`, emitted only
when the gap exceeds one second); `prev_end` advances to each fragment
entry's end, and the final value is recorded. -/
inductive Gapped : ℚ → List Sub → ℚ → Prop
  | nil (p : ℚ) : Gapped p [] p
  | frag (p p' : ℚ) (e : Sub) (rest : List Sub) :
      isMarkerSub e = false → ¬ e.start > p + 1 → Gapped e.stop rest p' →
      Gapped p (e :: rest) p'
  | gap (p p' : ℚ) (m e : Sub) (rest : List Sub) :
      isMarkerSub m = true → m.start = p → m.stop = e.start →
      isMarkerSub e = false → e.start > p + 1 → Gapped e.stop rest p' →
      Gapped p (m :: e :: rest) p'

/-- Slicing `audio[int(seg["start"]) : int(seg["end"])]` (offsets are
non-negative in this pipeline, where Python's `int` truncation agrees with
the floor). -/
def sliceAudio {A : Type} (audio : List A) (seg : Span) : List A :=
  (audio.drop (Int.toNat ⌊seg.start⌋)).take (Int.toNat ⌊seg.stop⌋ - Int.toNat ⌊seg.start⌋)

/-- The module-level `process(whisper_model, audio, seg, lang, prompt)`:
transcribe the slice and attach the origin timestamp. The whisper model is
a black box, modelled as a function from the audio slice to the fragment
list (language and prompt are fixed per run and absorbed into it). -/
def process {A : Type} (model : List A → List Fragment) (audio : List A) (seg : Span) :
    TranscriptResult :=
  ⟨seg, model (sliceAudio audio seg)⟩

/-- The fixed worker-pool size `Pool(processes=4)`. -/
def poolProcesses : ℕ := 4

/-- The condition on line 98 guarding the parallel branch of `_transcribe`. -/
def parallelModeOn (device : String) (segs : List Span) : Bool :=
  device == "cpu" && decide (segs.length > 1)

/-- The pool's execution trace: tasks are submitted for every span (in input
order), and finish in the order given by `completion` (a list of task
indices); each finished task records its index and its result. Completion
order affects only this trace and the progress bar, not the handles. -/
def poolRun {A : Type} (model : List A → List Fragment) (audio : List A)
    (tasks : List Span) (completion : List ℕ) : List (ℕ × TranscriptResult) :=
  completion.filterMap fun i => (tasks.get? i).map fun t => (i, process model audio t)

/-- `AsyncResult.get` for the handle of task `i`: look the task up in the
pool's execution trace (blocking forever — `none` — if it never finishes). -/
def asyncGet (completed : List (ℕ × TranscriptResult)) (i : ℕ) : Option TranscriptResult :=
  (completed.find? fun p => p.1 == i).map Prod.snd

/-- `Transcribe._transcribe`: on the parallel branch, `res` holds the
`apply_async` handles in submission order and the returned list is
`[i.get() for i in res]`; otherwise the spans are transcribed one at a
time in input order. -/
def transcribe_all {A : Type} (device : String) (model : List A → List Fragment)
    (audio : List A) (segs : List Span) (completion : List ℕ) : List TranscriptResult :=
  if parallelModeOn device segs then
    (List.range segs.length).filterMap (asyncGet (poolRun model audio segs completion))
  else
    segs.map (process model audio)

/-- The sequence of results in the order the pool completed them — what the
claim says the parallel branch returns. -/
def completionOrderResults {A : Type} (model : List A → List Fragment) (audio : List A)
    (segs : List Span) (completion : List ℕ) : List TranscriptResult :=
  completion.filterMap fun i => (segs.get? i).map (process model audio)

/-- Concrete two-segment scenario: a recognition model whose output depends
on the audio slice it receives, so the two segments' results differ. -/
def demoModel : List ℚ → List Fragment := fun l => [⟨l.headD 0, l.headD 0, ""⟩]

def demoAudio : List ℚ := [5, 7]

def demoSegs : List Span := [⟨0, 1⟩, ⟨1, 2⟩]

/-- Modelled from the spec: `utils.remove_short_segments(speeches, min_length)`
(the utils module is not part of this source tree) — drops any span whose
`end - start` is strictly below `min_length`; order of kept spans preserved. -/
def remove_short_segments (spans : List Span) (minLength : ℚ) : List Span :=
  spans.filter fun s => decide (¬ s.stop - s.start < minLength)

/-- Modelled from the spec: `utils.expand_segments(spans, pad_start, pad_end,
total_length)` — subtract `pad_start` from each start (clamped to 0) and add
`pad_end` to each end (clamped to `total_length`); order preserved. -/
def expand_segments (spans : List Span) (padStart padEnd total : ℚ) : List Span :=
  spans.map fun s => ⟨max 0 (s.start - padStart), min total (s.stop + padEnd)⟩

/-- Single left-to-right pass of the adjacent merge. -/
def mergeGo (maxGap : ℚ) (cur : Span) : List Span → List Span
  | [] => [cur]
  | n :: rest =>
    if n.start - cur.stop ≤ maxGap then mergeGo maxGap ⟨cur.start, n.stop⟩ rest
    else cur :: mergeGo maxGap n rest

/-- Modelled from the spec: `utils.merge_adjacent_segments(spans, max_gap)` —
merge consecutive start-sorted spans whose gap is at most `max_gap`. -/
def merge_adjacent_segments (spans : List Span) (maxGap : ℚ) : List Span :=
  match spans with
  | [] => []
  | s :: rest => mergeGo maxGap s rest

/-- `Transcribe._detect_voice_activity`, parameterised by the raw speech
spans returned by the (black-box) silero VAD collaborator; `audioLen` is
`audio.shape[0] = len(audio)` and the sampling rate is `sr`. -/
def detect_voice_activity (sr : ℚ) (audioLen : ℕ) (speeches : List Span) : List Span :=
  let s1 := remove_short_segments speeches (1.0 * sr)
  let s2 := expand_segments s1 (0.2 * sr) (0.0 * sr) audioLen
  let s3 := merge_adjacent_segments s2 (0.5 * sr)
  if s3.length > 1 then s3 else [⟨0, audioLen⟩]

/-- The VAD-gating condition of `Transcribe.run` (lines 43–47): Python's
`a or b and c` parses as `a or (b and c)`. -/
def vadEnabled (vad name : String) : Bool :=
  vad == "1" || (vad == "auto" && !(pyEndsWith name "_cut"))

/-- The speech-span selection of `Transcribe.run` for one input whose base
name (extension stripped) is `name`: run VAD when enabled, otherwise treat
the whole buffer as a single span. -/
def runSpans {A : Type} (vad name : String) (sr : ℚ) (audio : List A)
    (speeches : List Span) : List Span :=
  if vadEnabled vad name then detect_voice_activity sr audio.length speeches
  else [⟨0, audio.length⟩]

/-- Modelled from the spec: `utils.check_exists(path, force)` (the utils
module is not part of this source tree) — an existing output blocks
reprocessing unless force-overwrite is set; the file system is modelled as
the list of existing paths. -/
def check_exists (path : String) (force : Bool) (fs : List String) : Bool :=
  fs.contains path && !force

/-- Observable actions of one `Transcribe.run` iteration. -/
inductive Effect where
  | loadAudio (input : String)
  | transcribeStep
  | write (path : String)
  deriving DecidableEq, Repr

/-- One iteration of the per-input loop of `Transcribe.run`, for an input
with base name `name` (extension stripped): skip entirely when
`check_exists(name + ".md", force)` holds, otherwise load the audio,
transcribe, and write the `.srt`, `.md` and `_full_text.md` outputs.
Returns the resulting file system and the effects performed, in order. -/
def runOne (name : String) (force : Bool) (fs : List String) :
    List String × List Effect :=
  if check_exists (name ++ ".md") force fs then (fs, [])
  else
    ((name ++ ".srt") :: (name ++ ".md") :: (name ++ "_full_text.md") :: fs,
      [Effect.loadAudio name, Effect.transcribeStep,
        Effect.write (name ++ ".srt"), Effect.write (name ++ ".md"),
        Effect.write (name ++ "_full_text.md")])

/-- Loop state of `_save_full_text`: the running `_word_length`, the MD
collaborator's pending line buffer (`md.lines`, modelled from the spec as
an ordered line buffer with `add` appending and `clear` emptying), and the
blocks flushed (appended) to the output file so far. -/
structure FTState where
  wordLength : ℕ
  lines : List String
  flushed : List String
  deriving DecidableEq, Repr

/-- One iteration of the loop in `_save_full_text` over a subtitle's
content: gap markers are skipped; otherwise the stripped content is
counted and buffered, and once the running count exceeds 1000 the joined
buffer is appended to the file and both the count and the buffer reset. -/
def fullTextStep (st : FTState) (content : String) : FTState :=
  if pyStrip content == noSpeechText then st
  else
    if st.wordLength + (pyStrip content).length > 1000 then
      ⟨0, [], st.flushed ++
        [String.intercalate "," (st.lines ++ [pyStrip content]) ++ "\n"]⟩
    else
      ⟨st.wordLength + (pyStrip content).length, st.lines ++ [pyStrip content], st.flushed⟩

/-- `Transcribe._save_full_text` over the subtitle contents read back from
the srt file: `videoLine` is the header line `md.add_video` leaves in the
buffer; the output file starts empty (it is removed before the loop), and
only the flushed blocks ever reach it — the final buffer is discarded. -/
def save_full_text (videoLine : String) (contents : List String) : FTState :=
  contents.foldl fullTextStep ⟨0, [videoLine], []⟩

/-- The total stripped length of the non-marker contents, i.e. what the loop
adds to `_word_length` over a run. -/
def nonMarkerLength (contents : List String) : ℕ :=
  ((contents.filter fun c => !(pyStrip c == noSpeechText)).map
    fun c => (pyStrip c).length).sum

theorem processFrags_nil (off oend p : ℚ) : processFrags off oend p [] = (p, []) := rfl

theorem processFrags_cons (off oend p : ℚ) (f : Fragment) (fs : List Fragment) :
    processFrags off oend p (f :: fs) =
      if f.start + off > min (f.stop + off) oend then processFrags off oend p fs
      else
        ((processFrags off oend (min (f.stop + off) oend) fs).1,
          (if f.start + off > p + 1 then [addSub p (f.start + off) noSpeechText] else []) ++
            addSub (f.start + off) (min (f.stop + off) oend) f.text ::
              (processFrags off oend (min (f.stop + off) oend) fs).2) := rfl

theorem processResults_nil (sr p : ℚ) : processResults sr p [] = (p, []) := rfl

theorem processResults_cons (sr p : ℚ) (r : TranscriptResult) (rs : List TranscriptResult) :
    processResults sr p (r :: rs) =
      ((processResults sr
          (processFrags (r.origin.start / sr) (r.origin.stop / sr) p r.segments).1 rs).1,
        (processFrags (r.origin.start / sr) (r.origin.stop / sr) p r.segments).2 ++
          (processResults sr
            (processFrags (r.origin.start / sr) (r.origin.stop / sr) p r.segments).1 rs).2) := rfl

theorem pyStrip_noSpeechText : pyStrip noSpeechText = noSpeechText := by decide

theorem isMarkerSub_addSub_noSpeech (a b : ℚ) :
    isMarkerSub (addSub a b noSpeechText) = true := by
  simp [isMarkerSub, addSub, pyStrip_noSpeechText]

/-- Every entry emitted by the fragment loop is either a gap marker or the
clamped entry of one of the fragments. -/
theorem mem_processFrags (off oend : ℚ) (fs : List Fragment) (p : ℚ) :
    ∀ e ∈ (processFrags off oend p fs).2,
      isMarkerSub e = true ∨
        ∃ f ∈ fs, e = addSub (f.start + off) (min (f.stop + off) oend) f.text := by
  induction fs generalizing p with
  | nil => simp [processFrags_nil]
  | cons f fs ih =>
    intro e he
    rw [processFrags_cons] at he
    split at he
    · rcases ih p e he with h | ⟨g, hg, rfl⟩
      · exact Or.inl h
      · exact Or.inr ⟨g, List.mem_cons_of_mem _ hg, rfl⟩
    · simp only [List.mem_append, List.mem_cons] at he
      rcases he with hpre | rfl | hrest
      · split at hpre
        · simp only [List.mem_singleton] at hpre
          subst hpre
          exact Or.inl (isMarkerSub_addSub_noSpeech _ _)
        · simp at hpre
      · exact Or.inr ⟨f, List.mem_cons_self _ _, rfl⟩
      · rcases ih _ e hrest with h | ⟨g, hg, rfl⟩
        · exact Or.inl h
        · exact Or.inr ⟨g, List.mem_cons_of_mem _ hg, rfl⟩

/-- Every fragment that survives the degeneracy check contributes its clamped
entry to the fragment loop's output. -/
theorem processFrags_mem_of_not_skip (off oend : ℚ) (fs : List Fragment) (p : ℚ) :
    ∀ f ∈ fs, ¬ f.start + off > min (f.stop + off) oend →
      addSub (f.start + off) (min (f.stop + off) oend) f.text ∈ (processFrags off oend p fs).2 := by
  induction fs generalizing p with
  | nil => simp
  | cons g fs ih =>
    intro f hf hns
    rw [processFrags_cons]
    rcases List.mem_cons.1 hf with rfl | hf
    · rw [if_neg hns]
      exact List.mem_append_right _ (List.mem_cons_self _ _)
    · split
      · exact ih p f hf hns
      · exact List.mem_append_right _ (List.mem_cons_of_mem _ (ih _ f hf hns))

/-- Lifting of `mem_processFrags` to the outer loop of `_save_srt`. -/
theorem mem_processResults (sr : ℚ) (results : List TranscriptResult) (p : ℚ) :
    ∀ e ∈ (processResults sr p results).2,
      isMarkerSub e = true ∨
        ∃ r ∈ results, ∃ f ∈ r.segments,
          e = addSub (f.start + r.origin.start / sr)
            (min (f.stop + r.origin.start / sr) (r.origin.stop / sr)) f.text := by
  induction results generalizing p with
  | nil => simp [processResults_nil]
  | cons r rs ih =>
    intro e he
    rw [processResults_cons] at he
    rcases List.mem_append.1 he with hfst | hrest
    · rcases mem_processFrags _ _ _ _ e hfst with h | ⟨f, hf, rfl⟩
      · exact Or.inl h
      · exact Or.inr ⟨r, List.mem_cons_self _ _, f, hf, rfl⟩
    · rcases ih _ e hrest with h | ⟨r', hr', f, hf, rfl⟩
      · exact Or.inl h
      · exact Or.inr ⟨r', List.mem_cons_of_mem _ hr', f, hf, rfl⟩

theorem processResults_mem_of_not_skip (sr : ℚ) (results : List TranscriptResult) (p : ℚ) :
    ∀ r ∈ results, ∀ f ∈ r.segments,
      ¬ f.start + r.origin.start / sr > min (f.stop + r.origin.start / sr) (r.origin.stop / sr) →
      addSub (f.start + r.origin.start / sr)
        (min (f.stop + r.origin.start / sr) (r.origin.stop / sr)) f.text ∈
          (processResults sr p results).2 := by
  induction results generalizing p with
  | nil => simp
  | cons r rs ih =>
    intro r' hr' f hf hns
    rw [processResults_cons]
    rcases List.mem_cons.1 hr' with rfl | hr'
    · exact List.mem_append_left _ (processFrags_mem_of_not_skip _ _ _ _ f hf hns)
    · exact List.mem_append_right _ (ih _ r' hr' f hf hns)

/-- C1. Clamp property: every fragment of every transcript segment that
survives the degeneracy check is emitted by `_save_srt` with end time
`min(fragment.local_end + origin.start / sampling_rate, origin.end / sampling_rate)`,
and every emitted non-marker entry arises this way from some fragment, so its
end time is at most `origin.end / sampling_rate` for its segment. -/
theorem C1_clamp (sr : ℚ) (results : List TranscriptResult) :
    (∀ r ∈ results, ∀ f ∈ r.segments,
      ¬ f.start + r.origin.start / sr > min (f.stop + r.origin.start / sr) (r.origin.stop / sr) →
      addSub (f.start + r.origin.start / sr)
        (min (f.stop + r.origin.start / sr) (r.origin.stop / sr)) f.text ∈ save_srt sr results) ∧
    (∀ e ∈ save_srt sr results, isMarkerSub e = false →
      ∃ r ∈ results, ∃ f ∈ r.segments,
        e.stop = min (f.stop + r.origin.start / sr) (r.origin.stop / sr) ∧
        e.stop ≤ r.origin.stop / sr) := by
  constructor
  · intro r hr f hf hns
    exact processResults_mem_of_not_skip sr results 0 r hr f hf hns
  · intro e he hnm
    rcases mem_processResults sr results 0 e he with h | ⟨r, hr, f, hf, rfl⟩
    · rw [h] at hnm; cases hnm
    · exact ⟨r, hr, f, hf, rfl, min_le_right _ _⟩

/-- C1 witness. -/
theorem C1_clamp_witness :
    addSub ((0 : ℚ) + 0 / 1) (min ((12 : ℚ) + 0 / 1) (10 / 1)) "a" ∈
      save_srt 1 [⟨⟨0, 10⟩, [⟨0, 12, "a"⟩]⟩] ∧
    ∀ e ∈ save_srt 1 [⟨⟨0, 10⟩, [⟨0, 12, "a"⟩]⟩], isMarkerSub e = false →
      ∃ r ∈ [(⟨⟨0, 10⟩, [⟨0, 12, "a"⟩]⟩ : TranscriptResult)], ∃ f ∈ r.segments,
        e.stop = min (f.stop + r.origin.start / 1) (r.origin.stop / 1) ∧
        e.stop ≤ r.origin.stop / 1 := by
  constructor
  · exact (C1_clamp 1 [⟨⟨0, 10⟩, [⟨0, 12, "a"⟩]⟩]).1 _ (List.mem_singleton.2 rfl) _
      (List.mem_singleton.2 rfl) (by norm_num)
  · exact (C1_clamp 1 [⟨⟨0, 10⟩, [⟨0, 12, "a"⟩]⟩]).2

theorem Gapped.append {p q p' : ℚ} {l₁ l₂ : List Sub}
    (h₁ : Gapped p l₁ q) (h₂ : Gapped q l₂ p') : Gapped p (l₁ ++ l₂) p' := by
  induction h₁ with
  | nil => exact h₂
  | frag p _ e rest hm hle _ ih => exact Gapped.frag _ _ _ _ hm hle (ih h₂)
  | gap p _ m e rest hm hstart hstop hem hgt _ ih =>
    exact Gapped.gap _ _ _ _ _ hm hstart hstop hem hgt (ih h₂)

theorem gapped_processFrags (off oend : ℚ) (fs : List Fragment) (p : ℚ)
    (hm : ∀ f ∈ fs, pyStrip f.text ≠ noSpeechText) :
    Gapped p (processFrags off oend p fs).2 (processFrags off oend p fs).1 := by
  induction fs generalizing p with
  | nil => exact Gapped.nil p
  | cons f fs ih =>
    have hmf : isMarkerSub (addSub (f.start + off) (min (f.stop + off) oend) f.text) = false := by
      simp [isMarkerSub, addSub, hm f (List.mem_cons_self _ _)]
    have hmtail : ∀ g ∈ fs, pyStrip g.text ≠ noSpeechText :=
      fun g hg => hm g (List.mem_cons_of_mem _ hg)
    rw [processFrags_cons]
    split
    · exact ih p hmtail
    · split
      · exact Gapped.gap _ _ _ _ _ (isMarkerSub_addSub_noSpeech _ _) rfl rfl hmf
          (by assumption) (ih _ hmtail)
      · exact Gapped.frag _ _ _ _ hmf (by assumption) (ih _ hmtail)

theorem gapped_processResults (sr : ℚ) (results : List TranscriptResult) (p : ℚ)
    (hm : ∀ r ∈ results, ∀ f ∈ r.segments, pyStrip f.text ≠ noSpeechText) :
    Gapped p (processResults sr p results).2 (processResults sr p results).1 := by
  induction results generalizing p with
  | nil => exact Gapped.nil p
  | cons r rs ih =>
    rw [processResults_cons]
    exact Gapped.append
      (gapped_processFrags _ _ _ _ (hm r (List.mem_cons_self _ _)))
      (ih _ (fun r' hr' => hm r' (List.mem_cons_of_mem _ hr')))

/-- In a gap-disciplined list, a non-marker entry whose start is more than one
second past the running `prev_end` is reachable only through a marker
spanning exactly that gap; hence if all entries before it (within the
considered block) are markers, one of them is that exact marker. -/
theorem Gapped.marker_of_gap {q p' : ℚ} {l₂ l₃ : List Sub} {B : Sub}
    (h : Gapped q (l₂ ++ B :: l₃) p') (hmid : ∀ x ∈ l₂, isMarkerSub x = true)
    (hB : isMarkerSub B = false) (hgap : B.start > q + 1) :
    ∃ m ∈ l₂, m.start = q ∧ m.stop = B.start := by
  cases l₂ with
  | nil =>
    cases h with
    | frag _ _ _ _ hm hle _ => exact absurd hgap hle
    | gap _ _ _ _ _ hm _ _ _ _ _ => rw [hB] at hm; cases hm
  | cons m₀ l₂' =>
    cases l₂' with
    | nil =>
      cases h with
      | frag _ _ _ _ hm _ _ =>
        rw [hmid m₀ (List.mem_cons_self _ _)] at hm; cases hm
      | gap _ _ _ _ _ hm hstart hstop _ _ _ =>
        exact ⟨m₀, List.mem_cons_self _ _, hstart, hstop⟩
    | cons m₁ l₂'' =>
      cases h with
      | frag _ _ _ _ hm _ _ =>
        rw [hmid m₀ (List.mem_cons_self _ _)] at hm; cases hm
      | gap _ _ _ _ _ hm hstart hstop hem _ _ =>
        rw [hmid m₁ (List.mem_cons_of_mem _ (List.mem_cons_self _ _))] at hem
        cases hem

/-- Stepping a gap-disciplined list past its first non-marker block. -/
theorem Gapped.split_consecutive {p p' : ℚ} {l : List Sub} (h : Gapped p l p') :
    ∀ (l₁ l₂ l₃ : List Sub) (A B : Sub),
      l = l₁ ++ A :: (l₂ ++ B :: l₃) →
      isMarkerSub A = false → isMarkerSub B = false →
      (∀ x ∈ l₂, isMarkerSub x = true) → B.start > A.stop + 1 →
      ∃ m ∈ l₂, m.start = A.stop ∧ m.stop = B.start := by
  induction h with
  | nil =>
    intro l₁ l₂ l₃ A B heq
    exact absurd heq.symm (by simp)
  | frag p p' e rest hm hle hrest ih =>
    intro l₁ l₂ l₃ A B heq hA hB hmid hgap
    cases l₁ with
    | nil =>
      simp only [List.nil_append, List.cons.injEq] at heq
      obtain ⟨rfl, heq⟩ := heq
      subst heq
      exact hrest.marker_of_gap hmid hB hgap
    | cons x l₁' =>
      simp only [List.cons_append, List.cons.injEq] at heq
      obtain ⟨rfl, heq⟩ := heq
      exact ih l₁' l₂ l₃ A B heq hA hB hmid hgap
  | gap p p' m e rest hm hstart hstop hem hgt hrest ih =>
    intro l₁ l₂ l₃ A B heq hA hB hmid hgap
    cases l₁ with
    | nil =>
      simp only [List.nil_append, List.cons.injEq] at heq
      obtain ⟨rfl, heq⟩ := heq
      rw [hA] at hm; cases hm
    | cons x l₁' =>
      simp only [List.cons_append, List.cons.injEq] at heq
      obtain ⟨rfl, heq⟩ := heq
      cases l₁' with
      | nil =>
        simp only [List.nil_append, List.cons.injEq] at heq
        obtain ⟨rfl, heq⟩ := heq
        subst heq
        exact hrest.marker_of_gap hmid hB hgap
      | cons y l₁'' =>
        simp only [List.cons_append, List.cons.injEq] at heq
        obtain ⟨rfl, heq⟩ := heq
        exact ih l₁'' l₂ l₃ A B heq hA hB hmid hgap

/-- C2. Gap-marker property: provided no fragment's (stripped) text collides
with the fixed marker text, whenever two non-marker entries `A`, `B` emitted
by `_save_srt` are consecutive as non-marker entries (only markers between
them) and `B.start - A.end > 1.0`, a gap-marker entry with
`start = A.end` and `end = B.start` lies between them. -/
theorem C2_gap_marker (sr : ℚ) (results : List TranscriptResult)
    (hm : ∀ r ∈ results, ∀ f ∈ r.segments, pyStrip f.text ≠ noSpeechText)
    (l₁ l₂ l₃ : List Sub) (A B : Sub)
    (hsplit : save_srt sr results = l₁ ++ A :: (l₂ ++ B :: l₃))
    (hA : isMarkerSub A = false) (hB : isMarkerSub B = false)
    (hmid : ∀ x ∈ l₂, isMarkerSub x = true)
    (hgap : B.start - A.stop > 1) :
    ∃ m ∈ l₂, m.start = A.stop ∧ m.stop = B.start := by
  have h := gapped_processResults sr results 0 hm
  rw [show (processResults sr 0 results).2 = save_srt sr results from rfl, hsplit] at h
  exact h.split_consecutive l₁ l₂ l₃ A B rfl hA hB hmid (by linarith)

/-- C2 witness: one segment with a 2-second silence between its fragments. -/
theorem C2_gap_marker_witness :
    ∃ m ∈ [(⟨1, 3, noSpeechText⟩ : Sub)],
      m.start = (⟨0, 1, "a"⟩ : Sub).stop ∧ m.stop = (⟨3, 4, "b"⟩ : Sub).start := by
  refine C2_gap_marker 1 [⟨⟨0, 10⟩, [⟨0, 1, "a"⟩, ⟨3, 4, "b"⟩]⟩] ?_
    [] [⟨1, 3, noSpeechText⟩] [] ⟨0, 1, "a"⟩ ⟨3, 4, "b"⟩ ?_ (by decide) (by decide)
    (by decide) (by norm_num)
  · intro r hr f hf
    simp only [List.mem_singleton] at hr
    subst hr
    simp only [List.mem_cons, List.mem_singleton] at hf
    rcases hf with rfl | rfl | h
    · decide
    · decide
    · cases h
  · norm_num [save_srt, processResults, processFrags, addSub, noSpeechText, pyStrip]
    decide

/-- Transitive consequence of a `stop ≤ start` chain: the head's upper value
bounds every later element's lower value. -/
theorem chain'_le_of_mem {α : Type} (lo hi : α → ℚ) {x : α} {l : List α}
    (hwf : ∀ y ∈ l, lo y ≤ hi y)
    (hchain : List.Chain' (fun a b => hi a ≤ lo b) (x :: l)) :
    ∀ y ∈ l, hi x ≤ lo y := by
  induction l generalizing x with
  | nil => simp
  | cons y l ih =>
    intro z hz
    have h1 : hi x ≤ lo y := (List.chain'_cons.1 hchain).1
    rcases List.mem_cons.1 hz with rfl | hz
    · exact h1
    · have h2 := ih (fun w hw => hwf w (List.mem_cons_of_mem _ hw))
        (List.chain'_cons.1 hchain).2 z hz
      exact h1.trans ((hwf y (List.mem_cons_self _ _)).trans h2)

/-- Ordering invariant of the fragment loop: provided `prev_end` is below
every fragment's global start and below the clamp bound, and the fragments
are well-formed and chronological, the emitted entries are chained
(each entry ends before the next begins), lie between `prev_end` and the
resulting `prev_end`, and the resulting `prev_end` stays within the clamp
bound. -/
theorem ordered_processFrags (off oend : ℚ) (fs : List Fragment) (p : ℚ)
    (hwf : ∀ f ∈ fs, f.start ≤ f.stop)
    (hchain : List.Chain' (fun a b : Fragment => a.stop ≤ b.start) fs)
    (hprev : ∀ f ∈ fs, p ≤ f.start + off)
    (hpo : p ≤ oend) :
    p ≤ (processFrags off oend p fs).1 ∧
    (processFrags off oend p fs).1 ≤ oend ∧
    (∀ e ∈ (processFrags off oend p fs).2,
      p ≤ e.start ∧ e.start ≤ e.stop ∧ e.stop ≤ (processFrags off oend p fs).1) ∧
    List.Chain' (fun a b : Sub => a.stop ≤ b.start) (processFrags off oend p fs).2 := by
  induction fs generalizing p with
  | nil => exact ⟨le_refl p, hpo, by simp [processFrags_nil], by simp [processFrags_nil]⟩
  | cons f fs ih =>
    have hwf' : ∀ g ∈ fs, g.start ≤ g.stop := fun g hg => hwf g (List.mem_cons_of_mem _ hg)
    have hchain' : List.Chain' (fun a b : Fragment => a.stop ≤ b.start) fs := hchain.tail
    rw [processFrags_cons]
    by_cases hskip : f.start + off > min (f.stop + off) oend
    · rw [if_pos hskip]
      exact ih p hwf' hchain' (fun g hg => hprev g (List.mem_cons_of_mem _ hg)) hpo
    · rw [if_neg hskip]
      push_neg at hskip
      have hpstart : p ≤ f.start + off := hprev f (List.mem_cons_self _ _)
      have hpen : p ≤ min (f.stop + off) oend := hpstart.trans hskip
      have henoend : min (f.stop + off) oend ≤ oend := min_le_right _ _
      have hprev' : ∀ g ∈ fs, min (f.stop + off) oend ≤ g.start + off := fun g hg =>
        (min_le_left _ _).trans (by
          have := chain'_le_of_mem Fragment.start Fragment.stop hwf' hchain g hg
          linarith)
      obtain ⟨ih1, ih2, ih3, ih4⟩ := ih (min (f.stop + off) oend) hwf' hchain' hprev' henoend
      have hentry : ∀ e ∈ (processFrags off oend (min (f.stop + off) oend) fs).2,
          p ≤ e.start ∧ e.start ≤ e.stop ∧
            e.stop ≤ (processFrags off oend (min (f.stop + off) oend) fs).1 := by
        intro e he
        obtain ⟨h1, h2, h3⟩ := ih3 e he
        exact ⟨hpen.trans h1, h2, h3⟩
      have hchain_entry :
          List.Chain' (fun a b : Sub => a.stop ≤ b.start)
            (addSub (f.start + off) (min (f.stop + off) oend) f.text ::
              (processFrags off oend (min (f.stop + off) oend) fs).2) := by
        rw [List.chain'_cons']
        exact ⟨fun h hh => (ih3 h (List.mem_of_mem_head? hh)).1, ih4⟩
      constructor
      · exact hpen.trans ih1
      constructor
      · exact ih2
      constructor
      · intro e he
        split at he
        · simp only [List.cons_append, List.nil_append, List.mem_cons] at he
          rcases he with rfl | rfl | he
          · refine ⟨le_refl _, ?_, ?_⟩
            · show p ≤ f.start + off
              exact hpstart
            · show f.start + off ≤ _
              exact hskip.trans ih1
          · exact ⟨hpstart, hskip, ih1⟩
          · exact hentry e he
        · simp only [List.nil_append, List.mem_cons] at he
          rcases he with rfl | he
          · exact ⟨hpstart, hskip, ih1⟩
          · exact hentry e he
      · split
        · rw [List.cons_append, List.nil_append, List.chain'_cons]
          exact ⟨le_refl _, hchain_entry⟩
        · rw [List.nil_append]
          exact hchain_entry

/-- Ordering invariant of the outer loop of `_save_srt`: with chronological,
well-formed segments and fragments, the emitted entries are chained and lie
between `prev_end` and the final `prev_end`. -/
theorem ordered_processResults (sr : ℚ) (results : List TranscriptResult) (p : ℚ)
    (hfwf : ∀ r ∈ results, ∀ f ∈ r.segments, 0 ≤ f.start ∧ f.start ≤ f.stop)
    (hfchain : ∀ r ∈ results, List.Chain' (fun a b : Fragment => a.stop ≤ b.start) r.segments)
    (horder : List.Chain'
      (fun a b : TranscriptResult => a.origin.stop / sr ≤ b.origin.start / sr) results)
    (hspan : ∀ r ∈ results, 0 ≤ r.origin.start / sr ∧ r.origin.start / sr ≤ r.origin.stop / sr)
    (hple : ∀ r ∈ results, p ≤ r.origin.start / sr) :
    p ≤ (processResults sr p results).1 ∧
    (∀ e ∈ (processResults sr p results).2,
      p ≤ e.start ∧ e.start ≤ e.stop ∧ e.stop ≤ (processResults sr p results).1) ∧
    List.Chain' (fun a b : Sub => a.stop ≤ b.start) (processResults sr p results).2 := by
  induction results generalizing p with
  | nil => exact ⟨le_refl p, by simp [processResults_nil], by simp [processResults_nil]⟩
  | cons r rs ih =>
    have hwf : ∀ f ∈ r.segments, f.start ≤ f.stop :=
      fun f hf => (hfwf r (List.mem_cons_self _ _) f hf).2
    have hprev : ∀ f ∈ r.segments, p ≤ f.start + r.origin.start / sr := by
      intro f hf
      have h0 : 0 ≤ f.start := (hfwf r (List.mem_cons_self _ _) f hf).1
      have := hple r (List.mem_cons_self _ _)
      linarith
    have hpo : p ≤ r.origin.stop / sr :=
      (hple r (List.mem_cons_self _ _)).trans (hspan r (List.mem_cons_self _ _)).2
    obtain ⟨s1, s2, s3, s4⟩ := ordered_processFrags (r.origin.start / sr) (r.origin.stop / sr)
      r.segments p hwf (hfchain r (List.mem_cons_self _ _)) hprev hpo
    have hple' : ∀ r' ∈ rs,
        (processFrags (r.origin.start / sr) (r.origin.stop / sr) p r.segments).1 ≤
          r'.origin.start / sr := by
      intro r' hr'
      refine s2.trans ?_
      exact chain'_le_of_mem (fun t => t.origin.start / sr) (fun t => t.origin.stop / sr)
        (fun t ht => (hspan t (List.mem_cons_of_mem _ ht)).2) horder r' hr'
    obtain ⟨t1, t2, t3⟩ := ih
      (processFrags (r.origin.start / sr) (r.origin.stop / sr) p r.segments).1
      (fun r' hr' => hfwf r' (List.mem_cons_of_mem _ hr'))
      (fun r' hr' => hfchain r' (List.mem_cons_of_mem _ hr')) horder.tail
      (fun r' hr' => hspan r' (List.mem_cons_of_mem _ hr')) hple'
    rw [processResults_cons]
    constructor
    · exact s1.trans t1
    constructor
    · intro e he
      rcases List.mem_append.1 he with he | he
      · obtain ⟨h1, h2, h3⟩ := s3 e he
        exact ⟨h1, h2, h3.trans t1⟩
      · obtain ⟨h1, h2, h3⟩ := t2 e he
        exact ⟨s1.trans h1, h2, h3⟩
    · refine List.Chain'.append s4 t3 ?_
      intro x hx y hy
      have hx' := s3 x (List.mem_of_mem_getLast? hx)
      have hy' := t2 y (List.mem_of_mem_head? hy)
      exact hx'.2.2.trans hy'.1

/-- Weakening a `stop ≤ start` chain of well-formed entries to a
non-decreasing `start` chain. -/
theorem chain'_start_of_stop {l : List Sub}
    (h : List.Chain' (fun a b : Sub => a.stop ≤ b.start) l)
    (hwf : ∀ e ∈ l, e.start ≤ e.stop) :
    List.Chain' (fun a b : Sub => a.start ≤ b.start) l := by
  induction l with
  | nil => exact List.chain'_nil
  | cons a l ih =>
    cases l with
    | nil => simp
    | cons b t =>
      rw [List.chain'_cons] at h ⊢
      exact ⟨(hwf a (List.mem_cons_self _ _)).trans h.1,
        ih h.2 (fun e he => hwf e (List.mem_cons_of_mem _ he))⟩

/-- C3 counterexample: `_save_srt` applied to transcript segments that are
not in chronological order (as the parallel dispatcher may deliver them)
emits entries whose starts are not non-decreasing, refuting the claimed
unconditional ordering invariant. -/
theorem C3_order_counterexample :
    ¬ List.Chain' (fun a b : Sub => a.start ≤ b.start)
      (save_srt 16000 [⟨⟨80000, 160000⟩, [⟨0, 5, "b"⟩]⟩, ⟨⟨0, 80000⟩, [⟨0, 5, "a"⟩]⟩]) := by
  have : save_srt 16000 [⟨⟨80000, 160000⟩, [⟨0, 5, "b"⟩]⟩, ⟨⟨0, 80000⟩, [⟨0, 5, "a"⟩]⟩] =
      [⟨0, 5, noSpeechText⟩, ⟨5, 10, "b"⟩, ⟨0, 5, "a"⟩] := by
    norm_num [save_srt, processResults, processFrags, addSub, noSpeechText, pyStrip]
    decide
  rw [this]
  intro h
  rw [List.chain'_cons, List.chain'_cons] at h
  have := h.2.1
  norm_num at this

/-- C3 amended. Output ordering invariant: provided the transcript segments
are given in chronological order over well-formed origin spans and each
segment's fragments are well-formed and chronologically non-overlapping in
local time, the emitted SubtitleEntry sequence is sorted by start,
non-decreasing, each entry has `start ≤ end`, and no two entries overlap
(each entry ends no later than the next begins). -/
theorem C3_order_amended (sr : ℚ) (results : List TranscriptResult)
    (hsr : 0 < sr)
    (hspan : ∀ r ∈ results, 0 ≤ r.origin.start ∧ r.origin.start ≤ r.origin.stop)
    (horder : List.Chain'
      (fun a b : TranscriptResult => a.origin.stop ≤ b.origin.start) results)
    (hfwf : ∀ r ∈ results, ∀ f ∈ r.segments, 0 ≤ f.start ∧ f.start ≤ f.stop)
    (hfchain : ∀ r ∈ results, List.Chain' (fun a b : Fragment => a.stop ≤ b.start) r.segments) :
    List.Chain' (fun a b : Sub => a.start ≤ b.start) (save_srt sr results) ∧
    (∀ e ∈ save_srt sr results, e.start ≤ e.stop) ∧
    List.Chain' (fun a b : Sub => a.stop ≤ b.start) (save_srt sr results) := by
  have hspan' : ∀ r ∈ results, 0 ≤ r.origin.start / sr ∧
      r.origin.start / sr ≤ r.origin.stop / sr := by
    intro r hr
    exact ⟨div_nonneg (hspan r hr).1 hsr.le, by
      have := (hspan r hr).2
      exact div_le_div_of_nonneg_right this hsr.le⟩
  have horder' : List.Chain'
      (fun a b : TranscriptResult => a.origin.stop / sr ≤ b.origin.start / sr) results :=
    horder.imp (fun _ _ h => div_le_div_of_nonneg_right h hsr.le)
  have hple : ∀ r ∈ results, (0 : ℚ) ≤ r.origin.start / sr :=
    fun r hr => (hspan' r hr).1
  obtain ⟨h1, h2, h3⟩ := ordered_processResults sr results 0 hfwf hfchain horder' hspan' hple
  refine ⟨chain'_start_of_stop h3 (fun e he => (h2 e he).2.1), fun e he => (h2 e he).2.1, h3⟩

/-- C3 amended witness: two chronological segments, one fragment each. -/
theorem C3_order_amended_witness :
    List.Chain' (fun a b : Sub => a.start ≤ b.start)
      (save_srt 16000 [⟨⟨0, 80000⟩, [⟨0, 5, "a"⟩]⟩, ⟨⟨80000, 160000⟩, [⟨0, 5, "b"⟩]⟩]) ∧
    (∀ e ∈ save_srt 16000 [⟨⟨0, 80000⟩, [⟨0, 5, "a"⟩]⟩, ⟨⟨80000, 160000⟩, [⟨0, 5, "b"⟩]⟩],
      e.start ≤ e.stop) ∧
    List.Chain' (fun a b : Sub => a.stop ≤ b.start)
      (save_srt 16000 [⟨⟨0, 80000⟩, [⟨0, 5, "a"⟩]⟩, ⟨⟨80000, 160000⟩, [⟨0, 5, "b"⟩]⟩]) := by
  refine C3_order_amended 16000 _ (by norm_num) ?_ ?_ ?_ ?_
  · intro r hr
    simp only [List.mem_cons, List.mem_singleton] at hr
    rcases hr with rfl | rfl | h
    · norm_num
    · norm_num
    · cases h
  · simp only [List.chain'_cons, List.chain'_singleton]
    norm_num
  · intro r hr
    simp only [List.mem_cons, List.mem_singleton] at hr
    rcases hr with rfl | rfl | h
    · intro f hf
      simp only [List.mem_singleton] at hf
      subst hf
      norm_num
    · intro f hf
      simp only [List.mem_singleton] at hf
      subst hf
      norm_num
    · cases h
  · intro r hr
    simp only [List.mem_cons, List.mem_singleton] at hr
    rcases hr with rfl | rfl | h
    · simp
    · simp
    · cases h

/-- Dropping a degenerate fragment (clamped end before global start) from a
segment's fragment list leaves the fragment loop unchanged: same emitted
entries, same resulting `prev_end`. -/
theorem processFrags_drop_degenerate (off oend : ℚ) (f : Fragment)
    (hdeg : f.start + off > min (f.stop + off) oend) (fs1 fs2 : List Fragment) (p : ℚ) :
    processFrags off oend p (fs1 ++ f :: fs2) = processFrags off oend p (fs1 ++ fs2) := by
  induction fs1 generalizing p with
  | nil =>
    rw [List.nil_append, List.nil_append, processFrags_cons, if_pos hdeg]
  | cons g fs1 ih =>
    rw [List.cons_append, List.cons_append, processFrags_cons, processFrags_cons]
    by_cases hg : g.start + off > min (g.stop + off) oend
    · rw [if_pos hg, if_pos hg, ih p]
    · rw [if_neg hg, if_neg hg, ih]

/-- C5. Degenerate fragment drop: a fragment whose global start exceeds its
clamped global end contributes no SubtitleEntry and does not change
`prev_end`; removing it from its segment leaves the entire `_save_srt`
output unchanged, so all other fragments of the same and subsequent
segments are still emitted. -/
theorem C5_degenerate_drop (sr : ℚ) (pre post : List TranscriptResult)
    (origin : Span) (fs1 fs2 : List Fragment) (f : Fragment)
    (hdeg : f.start + origin.start / sr > min (f.stop + origin.start / sr) (origin.stop / sr)) :
    save_srt sr (pre ++ ⟨origin, fs1 ++ f :: fs2⟩ :: post) =
      save_srt sr (pre ++ ⟨origin, fs1 ++ fs2⟩ :: post) := by
  suffices h : ∀ p : ℚ,
      processResults sr p (pre ++ ⟨origin, fs1 ++ f :: fs2⟩ :: post) =
        processResults sr p (pre ++ ⟨origin, fs1 ++ fs2⟩ :: post) by
    unfold save_srt
    rw [h 0]
  induction pre with
  | nil =>
    intro p
    rw [List.nil_append, List.nil_append, processResults_cons, processResults_cons]
    dsimp only
    rw [processFrags_drop_degenerate _ _ f hdeg fs1 fs2 p]
  | cons r pre ih =>
    intro p
    rw [List.cons_append, List.cons_append, processResults_cons, processResults_cons]
    rw [ih]

/-- C5 witness: a degenerate fragment between two sound ones is dropped
without disturbing the rest. -/
theorem C5_degenerate_drop_witness :
    save_srt 1 [⟨⟨0, 10⟩, [⟨0, 1, "a"⟩, ⟨12, 13, "x"⟩, ⟨3, 4, "b"⟩]⟩] =
      save_srt 1 [⟨⟨0, 10⟩, [⟨0, 1, "a"⟩, ⟨3, 4, "b"⟩]⟩] :=
  C5_degenerate_drop 1 [] [] ⟨0, 10⟩ [⟨0, 1, "a"⟩] [⟨3, 4, "b"⟩] ⟨12, 13, "x"⟩ (by norm_num)

theorem poolRun_cons {A : Type} (model : List A → List Fragment) (audio : List A)
    (tasks : List Span) (j : ℕ) (cs : List ℕ) :
    poolRun model audio tasks (j :: cs) =
      (((tasks.get? j).map fun t => (j, process model audio t)).toList) ++
        poolRun model audio tasks cs := by
  cases h : tasks.get? j <;>
    · rw [List.get?_eq_getElem?] at h
      simp [poolRun, List.filterMap_cons, h]

theorem asyncGet_poolRun {A : Type} (model : List A → List Fragment) (audio : List A)
    (tasks : List Span) (completion : List ℕ) (i : ℕ)
    (hi : i ∈ completion) (hlt : i < tasks.length) :
    asyncGet (poolRun model audio tasks completion) i =
      (tasks.get? i).map (process model audio) := by
  induction completion with
  | nil => cases hi
  | cons j cs ih =>
    rw [poolRun_cons]
    cases htj : tasks.get? j with
    | none =>
      rcases List.mem_cons.1 hi with rfl | hi
      · rw [List.get?_eq_get hlt] at htj
        cases htj
      · simpa using ih hi
    | some t =>
      simp only [Option.map_some', Option.toList_some, List.singleton_append]
      by_cases hij : j = i
      · subst hij
        rw [asyncGet, List.find?_cons_of_pos _ (by simp), htj]
        rfl
      · rw [asyncGet, List.find?_cons_of_neg _ (by simp [hij])]
        rcases List.mem_cons.1 hi with rfl | hi
        · exact absurd rfl hij
        · exact ih hi

theorem filterMap_eq_map_of_some {A B : Type} (g : A → Option B) (h : A → B) (l : List A)
    (hl : ∀ a ∈ l, g a = some (h a)) : l.filterMap g = l.map h := by
  induction l with
  | nil => rfl
  | cons a l ih =>
    rw [List.filterMap_cons, hl a (List.mem_cons_self _ _), List.map_cons,
      ih (fun b hb => hl b (List.mem_cons_of_mem _ hb))]

/-- Fanning in the `apply_async` handles in submission order recovers the
input order, as long as the pool eventually completes every task. -/
theorem gather_eq_map {A : Type} (model : List A → List Fragment) (audio : List A)
    (segs : List Span) (completion : List ℕ)
    (hcov : ∀ i, i < segs.length → i ∈ completion) :
    (List.range segs.length).filterMap (asyncGet (poolRun model audio segs completion)) =
      segs.map (process model audio) := by
  rw [filterMap_eq_map_of_some _
    (fun i => process model audio (segs.getD i ⟨0, 0⟩)) _ ?_]
  · apply List.ext_get
    · simp
    · intro n h1 h2
      have hn : n < segs.length := by simpa using h1
      simp [List.get_eq_getElem, List.getElem_map, List.getElem_range,
        List.getD_eq_getElem?_getD, List.getElem?_eq_getElem hn]
  · intro i hi
    have hlt : i < segs.length := by simpa using List.mem_range.1 hi
    rw [asyncGet_poolRun model audio segs completion i (hcov i hlt) hlt]
    simp [List.getD_eq_getElem?_getD, List.get?_eq_getElem?, List.getElem?_eq_getElem hlt]

/-- C4 counterexample: with device `"cpu"`, two spans and pool completion
order `[1, 0]` (second task finishes first), `_transcribe` returns the
results in input order, not in the completion order the claim asserts. -/
theorem C4_completion_counterexample :
    transcribe_all "cpu" demoModel demoAudio demoSegs [1, 0] =
      [process demoModel demoAudio ⟨0, 1⟩, process demoModel demoAudio ⟨1, 2⟩] ∧
    completionOrderResults demoModel demoAudio demoSegs [1, 0] =
      [process demoModel demoAudio ⟨1, 2⟩, process demoModel demoAudio ⟨0, 1⟩] ∧
    transcribe_all "cpu" demoModel demoAudio demoSegs [1, 0] ≠
      completionOrderResults demoModel demoAudio demoSegs [1, 0] := by
  have hm : parallelModeOn "cpu" demoSegs = true := by decide
  have h0 : sliceAudio demoAudio (⟨0, 1⟩ : Span) = [5] := by
    norm_num [sliceAudio, demoAudio, Int.toNat_ofNat]
  have h1 : sliceAudio demoAudio (⟨1, 2⟩ : Span) = [7] := by
    norm_num [sliceAudio, demoAudio, Int.toNat_ofNat]
    omega
  have ha0 : asyncGet (poolRun demoModel demoAudio demoSegs [1, 0]) 0 =
      some (process demoModel demoAudio ⟨0, 1⟩) := by
    rw [asyncGet_poolRun demoModel demoAudio demoSegs [1, 0] 0 (by decide) (by decide)]
    rfl
  have ha1 : asyncGet (poolRun demoModel demoAudio demoSegs [1, 0]) 1 =
      some (process demoModel demoAudio ⟨1, 2⟩) := by
    rw [asyncGet_poolRun demoModel demoAudio demoSegs [1, 0] 1 (by decide) (by decide)]
    rfl
  have hlhs : transcribe_all "cpu" demoModel demoAudio demoSegs [1, 0] =
      [process demoModel demoAudio ⟨0, 1⟩, process demoModel demoAudio ⟨1, 2⟩] := by
    rw [transcribe_all, if_pos hm]
    show (List.range 2).filterMap _ = _
    rw [show List.range 2 = [0, 1] from rfl]
    simp only [List.filterMap_cons, List.filterMap_nil, ha0, ha1]
  have hrhs : completionOrderResults demoModel demoAudio demoSegs [1, 0] =
      [process demoModel demoAudio ⟨1, 2⟩, process demoModel demoAudio ⟨0, 1⟩] := rfl
  refine ⟨hlhs, hrhs, ?_⟩
  rw [hlhs, hrhs]
  have h2 : process demoModel demoAudio (⟨0, 1⟩ : Span) ≠
      process demoModel demoAudio (⟨1, 2⟩ : Span) := by
    rw [process, process, h0, h1]
    intro hc
    simp only [TranscriptResult.mk.injEq, Span.mk.injEq] at hc
    norm_num at hc
  intro hc
  simp only [List.cons.injEq] at hc
  exact h2 hc.1

/-- C4 amended. Dispatcher result order: `_transcribe` returns results in
input order in both modes — on the parallel branch the `apply_async`
handles are gathered in submission order, so completion order never shows
in the returned list (provided the pool completes every submitted task). -/
theorem C4_input_order {A : Type} (device : String) (model : List A → List Fragment)
    (audio : List A) (segs : List Span) (completion : List ℕ)
    (hcov : ∀ i, i < segs.length → i ∈ completion) :
    transcribe_all device model audio segs completion = segs.map (process model audio) := by
  rw [transcribe_all]
  split
  · exact gather_eq_map model audio segs completion hcov
  · rfl

/-- C4 amended witness. -/
theorem C4_input_order_witness :
    transcribe_all "cpu" demoModel demoAudio demoSegs [1, 0] =
      demoSegs.map (process demoModel demoAudio) :=
  C4_input_order "cpu" demoModel demoAudio demoSegs [1, 0] (by decide)

/-- C8. Parallel-mode gating: the parallel branch of `_transcribe` (with its
fixed pool of 4 worker processes) is taken exactly when the device is
`"cpu"` and there is more than one segment; in every other case the
segments are transcribed sequentially in input order. -/
theorem C8_parallel_gating {A : Type} (device : String) (model : List A → List Fragment)
    (audio : List A) (segs : List Span) (completion : List ℕ) :
    (parallelModeOn device segs = true ↔ device = "cpu" ∧ 1 < segs.length) ∧
    poolProcesses = 4 ∧
    (parallelModeOn device segs = false →
      transcribe_all device model audio segs completion = segs.map (process model audio)) := by
  refine ⟨?_, rfl, ?_⟩
  · simp [parallelModeOn, Bool.and_eq_true, beq_iff_eq]
  · intro h
    rw [transcribe_all, if_neg (by rw [h]; exact Bool.false_ne_true)]

/-- C8 witness: a non-cpu device with two segments stays sequential. -/
theorem C8_parallel_gating_witness :
    parallelModeOn "cuda" demoSegs = false ∧
    transcribe_all "cuda" demoModel demoAudio demoSegs [] =
      demoSegs.map (process demoModel demoAudio) :=
  ⟨by decide,
    (C8_parallel_gating "cuda" demoModel demoAudio demoSegs []).2.2 (by decide)⟩

/-- C6. VAD fallback: if the span sequence left after the
remove-short/expand/merge pipeline has exactly one element,
`_detect_voice_activity` returns one span covering the whole buffer
instead; a pipeline result with more than one element is returned
unchanged. -/
theorem C6_vad_fallback (sr : ℚ) (audioLen : ℕ) (speeches : List Span) :
    (((merge_adjacent_segments
        (expand_segments (remove_short_segments speeches (1.0 * sr))
          (0.2 * sr) (0.0 * sr) audioLen) (0.5 * sr)).length = 1 →
      detect_voice_activity sr audioLen speeches = [⟨0, audioLen⟩]) ∧
     (1 < (merge_adjacent_segments
        (expand_segments (remove_short_segments speeches (1.0 * sr))
          (0.2 * sr) (0.0 * sr) audioLen) (0.5 * sr)).length →
      detect_voice_activity sr audioLen speeches =
        merge_adjacent_segments
          (expand_segments (remove_short_segments speeches (1.0 * sr))
            (0.2 * sr) (0.0 * sr) audioLen) (0.5 * sr))) := by
  constructor
  · intro h
    rw [detect_voice_activity]
    simp only [h]
    norm_num
  · intro h
    rw [detect_voice_activity]
    simp only [if_pos h]

/-- C6 witness: a single raw span long enough to survive the pipeline still
triggers the whole-buffer fallback. -/
theorem C6_vad_fallback_witness :
    merge_adjacent_segments
      (expand_segments (remove_short_segments [(⟨16000, 64000⟩ : Span)] (1.0 * 16000))
        (0.2 * 16000) (0.0 * 16000) ((160000 : ℕ) : ℚ)) (0.5 * 16000) = [⟨12800, 64000⟩] ∧
    detect_voice_activity 16000 160000 [⟨16000, 64000⟩] = [⟨0, ((160000 : ℕ) : ℚ)⟩] := by
  have hpipe : merge_adjacent_segments
      (expand_segments (remove_short_segments [(⟨16000, 64000⟩ : Span)] (1.0 * 16000))
        (0.2 * 16000) (0.0 * 16000) ((160000 : ℕ) : ℚ)) (0.5 * 16000) = [⟨12800, 64000⟩] := by
    norm_num [remove_short_segments, expand_segments, merge_adjacent_segments, mergeGo]
  exact ⟨hpipe, (C6_vad_fallback 16000 160000 [⟨16000, 64000⟩]).1 (by rw [hpipe]; rfl)⟩

/-- C7. VAD gating: voice-activity segmentation runs iff the vad
configuration is `"1"`, or it is `"auto"` and the input's base name does
not end with `"_cut"`; otherwise the whole buffer is one span
`{start: 0, end: len(audio)}`. -/
theorem C7_vad_gating {A : Type} (vad name : String) (sr : ℚ) (audio : List A)
    (speeches : List Span) :
    (vadEnabled vad name = true ↔
      vad = "1" ∨ (vad = "auto" ∧ pyEndsWith name "_cut" = false)) ∧
    (vadEnabled vad name = true →
      runSpans vad name sr audio speeches = detect_voice_activity sr audio.length speeches) ∧
    (vadEnabled vad name = false →
      runSpans vad name sr audio speeches = [⟨0, audio.length⟩]) := by
  refine ⟨?_, ?_, ?_⟩
  · simp [vadEnabled, Bool.or_eq_true, Bool.and_eq_true, beq_iff_eq,
      Bool.not_eq_true']
  · intro h
    rw [runSpans, if_pos h]
  · intro h
    rw [runSpans, if_neg (by rw [h]; exact Bool.false_ne_true)]

/-- C7 witness: `"auto"` with a pre-cut base name disables VAD. -/
theorem C7_vad_gating_witness :
    (vadEnabled "auto" "talk_cut" = true ↔
      "auto" = "1" ∨ ("auto" = "auto" ∧ pyEndsWith "talk_cut" "_cut" = false)) ∧
    (vadEnabled "1" "talk_cut" = true →
      runSpans "1" "talk_cut" 16000 [(0 : ℚ)] [⟨0, 1⟩] =
        detect_voice_activity 16000 1 [⟨0, 1⟩]) ∧
    runSpans "auto" "talk_cut" 16000 [(0 : ℚ)] [⟨0, 1⟩] = [⟨0, 1⟩] := by
  refine ⟨(C7_vad_gating "auto" "talk_cut" 16000 [(0 : ℚ)] [⟨0, 1⟩]).1,
    (C7_vad_gating "1" "talk_cut" 16000 [(0 : ℚ)] [⟨0, 1⟩]).2.1, ?_⟩
  have h := (C7_vad_gating "auto" "talk_cut" 16000 [(0 : ℚ)] [⟨0, 1⟩]).2.2 (by decide)
  simpa using h

/-- C9. Idempotence gate: without force, an existing up-to-date output makes
`run` skip the input entirely — no audio load, no transcription, no write,
and the file system is unchanged; consequently a second run directly after
a first run performs no effect at all. -/
theorem C9_idempotence (name : String) (fs : List String) :
    ((name ++ ".md") ∈ fs → runOne name false fs = (fs, [])) ∧
    runOne name false (runOne name false fs).1 = ((runOne name false fs).1, []) := by
  have hskip : ∀ gs : List String, (name ++ ".md") ∈ gs → runOne name false gs = (gs, []) := by
    intro gs hgs
    rw [runOne, if_pos]
    rw [check_exists]
    simpa using hgs
  refine ⟨hskip fs, ?_⟩
  refine hskip _ ?_
  rw [runOne]
  split
  · next h =>
      rw [check_exists] at h
      simpa using h
  · exact List.mem_cons_of_mem _ (List.mem_cons_self _ _)

/-- C9 witness: `talk.md` already exists; nothing happens, twice over. -/
theorem C9_idempotence_witness :
    (runOne "talk" false ["talk.md"] = (["talk.md"], [])) ∧
    runOne "talk" false (runOne "talk" false []).1 = ((runOne "talk" false []).1, []) :=
  ⟨(C9_idempotence "talk" ["talk.md"]).1 (by decide),
    (C9_idempotence "talk" []).2⟩

theorem fullText_no_flush (st : FTState) (contents : List String)
    (h : st.wordLength + nonMarkerLength contents ≤ 1000) :
    (contents.foldl fullTextStep st).flushed = st.flushed ∧
    (contents.foldl fullTextStep st).wordLength =
      st.wordLength + nonMarkerLength contents := by
  induction contents generalizing st with
  | nil => simp [nonMarkerLength]
  | cons c cs ih =>
    by_cases hc : pyStrip c == noSpeechText
    · have hlen : nonMarkerLength (c :: cs) = nonMarkerLength cs := by
        simp [nonMarkerLength, List.filter_cons, hc]
      rw [hlen] at h
      rw [List.foldl_cons, show fullTextStep st c = st from by rw [fullTextStep, if_pos hc]]
      rw [hlen]
      exact ih st h
    · have hlen : nonMarkerLength (c :: cs) =
          (pyStrip c).length + nonMarkerLength cs := by
        simp [nonMarkerLength, List.filter_cons, hc]
      rw [hlen] at h
      have hnf : ¬ st.wordLength + (pyStrip c).length > 1000 := by omega
      rw [List.foldl_cons, show fullTextStep st c =
          ⟨st.wordLength + (pyStrip c).length, st.lines ++ [pyStrip c], st.flushed⟩ from by
        rw [fullTextStep, if_neg (by simpa using hc), if_neg hnf]]
      have := ih ⟨st.wordLength + (pyStrip c).length, st.lines ++ [pyStrip c], st.flushed⟩
        (by dsimp only; omega)
      rw [hlen]
      refine ⟨this.1, ?_⟩
      rw [this.2]
      dsimp only
      omega

/-- C10. Implicit trailing-chunk loss in `_save_full_text`: the buffer is
flushed to the file only at the moment the cumulative non-marker character
count exceeds 1000, so (a) when the whole document's non-marker text is at
most 1000 characters nothing is ever written, and (b) trailing contents
whose accumulated length never pushes the running count past 1000 are
discarded — appending them changes nothing about what is written. -/
theorem C10_trailing_loss (videoLine : String) (contents extra : List String) :
    (nonMarkerLength contents ≤ 1000 →
      (save_full_text videoLine contents).flushed = []) ∧
    ((save_full_text videoLine contents).wordLength + nonMarkerLength extra ≤ 1000 →
      (save_full_text videoLine (contents ++ extra)).flushed =
        (save_full_text videoLine contents).flushed) := by
  constructor
  · intro h
    exact (fullText_no_flush ⟨0, [videoLine], []⟩ contents (by simpa using h)).1
  · intro h
    rw [save_full_text, List.foldl_append]
    exact (fullText_no_flush (save_full_text videoLine contents) extra h).1

/-- C10 witness: 11 characters of text are never written. -/
theorem C10_trailing_loss_witness :
    (save_full_text "video" ["hello ", "< No Speech >"]).flushed = [] ∧
    (save_full_text "video" (["hello "] ++ ["world"])).flushed =
      (save_full_text "video" ["hello "]).flushed :=
  ⟨(C10_trailing_loss "video" ["hello ", "< No Speech >"] []).1 (by decide),
    (C10_trailing_loss "video" ["hello "] ["world"]).2 (by decide)⟩

end Autocut
